import Mathlib

/-!
Verification of the skip-list set container in `include/skip_list.h`
(`stl::skip_list<T, Compare>`).

Shallow embedding.  A skip-list node (`struct Node`, lines 27-44) owns a
value and a `forward` array of `level + 1` successor pointers; the node's
height is fixed at creation.  The multi-level pointer graph the C++ code
maintains satisfies, by construction of `insert` and `erase`, the
cross-level subsequence property: the chain reachable at level `i` is
exactly the subsequence of the level-0 chain consisting of the nodes whose
height is at least `i` (every splice in `insert` links the new node at all
levels `0..height` at the same level-0 position, and every unsplice in
`erase` removes it from all of them).  We therefore represent a container
state by the level-0 list of nodes, each carrying its value, its height and
an identity (the C++ node address, used by iterator/pointer comparisons),
and we recover the level-`i` chain as the height-filtered subsequence.
`current_level`, `element_count` and the cached `tail` pointer are carried
explicitly, as in the source (lines 666-674).

The comparison functor `Compare` is an arbitrary strict weak order; it is
embedded as an explicit `lt : α → α → Bool` parameter, with the strict weak
order laws (`IsSWO`) taken as hypotheses exactly where a theorem needs
them.  Iterators are embedded as `Option (SNode α)`: `none` is `end()`
(the null pointer, line 283), `some n` an iterator holding node `n`;
iterator equality is pointer equality, i.e. `id` equality.

The pseudo-random level generator draws floats from `dist(gen)` and
compares each to `PROBABILITY`; only those Boolean outcomes influence
control flow, so the generator state is embedded as the resulting Boolean
stream `coins : Nat → Bool`.
-/

/-- A skip-list node: C++ `struct Node` (lines 27-44).  `id` models the node
address (pointer identity), `value` the stored element, `height` the level
argument passed at construction, so the `forward` array has `height + 1`
slots.  The forward pointers themselves are represented implicitly by the
position of the node in the container's level-0 list together with
`height` (see the file comment). -/
structure SNode (α : Type) where
  id : Nat
  value : α
  height : Nat
  deriving DecidableEq

/-- Container state of `stl::skip_list` (lines 666-674): the level-0 chain
hanging off the head sentinel (`nodes`, in traversal order), `current_level`,
`element_count`, the cached `tail` (stored as the node id of the last
level-0 node, or `none` for `nullptr`), and `nextId`, the allocator model
producing a fresh address for each `new Node`. -/
structure skip_list (α : Type) where
  nodes : List (SNode α)
  current_level : Nat
  element_count : Nat
  nextId : Nat
  tail : Option Nat
  deriving DecidableEq

variable {α : Type}

/-- The state made by the default constructor (lines 132-136): head sentinel
with all-null forward slots, level 0, zero elements, null tail. -/
def emptySL : skip_list α :=
  { nodes := [], current_level := 0, element_count := 0, nextId := 0, tail := none }

/-- `MAX_LEVEL` (line 666). -/
def MAX_LEVEL : Nat := 16

/-- One inner `while` loop of the shared descent (e.g. lines 334-339),
with an explicit iteration bound as the first argument: at level `i`,
starting from the position whose remaining level-0 suffix is `s`, advance
`current = current->forward[i]` while that successor exists and satisfies
the step predicate `p` on its value.  `current->forward[i]` is the first
node of the suffix with height at least `i` (the nodes before it in the
suffix are not linked at level `i`); advancing to it makes the new suffix
the part after it.  Returns the level-0 suffix after the node the walk
stops at.  Every iteration moves past at least one node of the suffix, so
a bound of `s.length` iterations (as `walkLevel` passes) never runs out;
the bound only makes the recursion structural. -/
def walkLevelAux (p : α → Bool) (i : Nat) : Nat → List (SNode α) → List (SNode α)
  | 0, s => s
  | fuel + 1, s =>
    match s.dropWhile (fun n => decide (n.height < i)) with
    | [] => s
    | n :: rest => if p n.value then walkLevelAux p i fuel rest else s

/-- The inner `while` loop of the shared descent at level `i` on the
level-0 suffix `s` (see `walkLevelAux`). -/
def walkLevel (p : α → Bool) (i : Nat) (s : List (SNode α)) : List (SNode α) :=
  walkLevelAux p i s.length s

/-- The full descent `for (int i = current_level; i >= 0; --i)` (lines
334-339, 417-422, 509-513, 579-583, 611-615): run the level walk from the
top level down to level 0, each level resuming from where the previous one
stopped (never restarting from head).  Returns the level-0 suffix starting
at `current->forward[0]`, i.e. the final `current = current->forward[0]`
(line 341) is the head of the result. -/
def descend (p : α → Bool) : Nat → List (SNode α) → List (SNode α)
  | 0, s => walkLevel p 0 s
  | i + 1, s => descend p i (walkLevel p (i + 1) s)

/-- In-order traversal `begin()`..`end()` following `forward[0]` links
(lines 265, 73-76): the values of the level-0 chain in order. -/
def skip_list.values (sl : skip_list α) : List α := sl.nodes.map SNode.value

/-- `size()` (line 307). -/
def skip_list.size (sl : skip_list α) : Nat := sl.element_count

/-- The splice part of `insert` (lines 347-366): raise `current_level` when
the drawn level exceeds it, allocate the node, link it at levels
`0..new_level` at the descent position (the per-level `update` predecessors
all sit at the boundary between the dropped prefix and `suffix`), update
`tail` if the new node has no level-0 successor, bump the count.  `suffix`
is the level-0 suffix produced by the descent; the dropped prefix is
recovered by length. -/
def skip_list.splice (sl : skip_list α) (v : α) (newLevel : Nat)
    (suffix : List (SNode α)) : skip_list α × Option (SNode α) × Bool :=
  let pre := sl.nodes.take (sl.nodes.length - suffix.length)
  let node : SNode α := ⟨sl.nextId, v, newLevel⟩
  ({ nodes := pre ++ node :: suffix,
     current_level := max sl.current_level newLevel,
     element_count := sl.element_count + 1,
     nextId := sl.nextId + 1,
     tail := if suffix.isEmpty then some node.id else sl.tail },
   some node, true)

/-- `insert(const T&)` (lines 330-367): descend with strict-less
comparison; if the level-0 successor at the stop position exists and
compares equal (`!comp(value, cur) && !comp(cur, value)`, line 343) return
its iterator and `false` with no mutation; otherwise splice a node of the
drawn height `newLevel` and return its iterator and `true`. -/
def skip_list.insert (lt : α → α → Bool) (sl : skip_list α) (v : α)
    (newLevel : Nat) : skip_list α × Option (SNode α) × Bool :=
  let suffix := descend (fun x => lt x v) sl.current_level sl.nodes
  match suffix.head? with
  | some c =>
      if !(lt v c.value) && !(lt c.value v) then (sl, some c, false)
      else skip_list.splice sl v newLevel suffix
  | none => skip_list.splice sl v newLevel suffix

set_option linter.unusedVariables false in
/-- Hinted insert overload `insert(iterator hint, const T&)` (lines
375-378): the hint is explicitly discarded (`(void)hint;`) and the result
is `insert(value).first`, with whatever mutation `insert(value)` performs. -/
def skip_list.insert_hint (lt : α → α → Bool) (sl : skip_list α)
    (hint : Option (SNode α)) (v : α) (newLevel : Nat) :
    skip_list α × Option (SNode α) :=
  ((skip_list.insert lt sl v newLevel).1, (skip_list.insert lt sl v newLevel).2.1)

/-- The `current_level` shrink loop of `erase` (lines 443-445):
`while (current_level > 0 && head->forward[current_level] == nullptr)
--current_level;`.  `head->forward[i]` is null exactly when no remaining
node has height at least `i`. -/
def shrinkLevel (nodes : List (SNode α)) : Nat → Nat
  | 0 => 0
  | l + 1 =>
      if nodes.all (fun n => decide (n.height < l + 1)) then shrinkLevel nodes l
      else l + 1

/-- `erase(iterator pos)` (lines 406-449).  `end()` input is a no-op
returning `end()`.  Otherwise re-derive the predecessors by descending with
strict-less against the target's value and verify the level-0 successor at
the stop position is the very node of the handle (pointer identity, line
426); on mismatch return `end()` with no mutation.  On match unlink the
node at every level it is linked at (modelled by removing it from the
level-0 list, which removes it from every height-filtered chain), fix
`tail` (lines 437-439: predecessor of the removed node, or null when that
predecessor is the head), deallocate, shrink `current_level`, decrement the
count, and return the iterator to the removed node's level-0 successor. -/
def skip_list.erase_pos (lt : α → α → Bool) (sl : skip_list α)
    (pos : Option (SNode α)) : skip_list α × Option (SNode α) :=
  match pos with
  | none => (sl, none)
  | some nd =>
    match descend (fun x => lt x nd.value) sl.current_level sl.nodes with
    | [] => (sl, none)
    | c :: rest =>
      if c.id = nd.id then
        let pre := sl.nodes.take (sl.nodes.length - (c :: rest).length)
        ({ nodes := pre ++ rest,
           current_level := shrinkLevel (pre ++ rest) sl.current_level,
           element_count := sl.element_count - 1,
           nextId := sl.nextId,
           tail := if sl.tail = some nd.id then pre.getLast?.map SNode.id
                   else sl.tail },
         rest.head?)
      else (sl, none)

/-- `find(const T&)` (lines 507-520): descend with strict-less; if the
level-0 successor at the stop position exists and compares equal, return
its iterator, else `end()`. -/
def skip_list.find (lt : α → α → Bool) (sl : skip_list α) (v : α) :
    Option (SNode α) :=
  match (descend (fun x => lt x v) sl.current_level sl.nodes).head? with
  | some c => if !(lt v c.value) && !(lt c.value v) then some c else none
  | none => none

/-- `erase(const T& value)` (lines 456-463): find the value; if found,
erase that iterator and report 1, else report 0. -/
def skip_list.erase_value (lt : α → α → Bool) (sl : skip_list α) (v : α) :
    skip_list α × Nat :=
  match skip_list.find lt sl v with
  | some it => ((skip_list.erase_pos lt sl (some it)).1, 1)
  | none => (sl, 0)

/-- `lower_bound(const T&)` (lines 577-586): descend with strict-less and
return the iterator at the resulting level-0 successor (possibly `end()`). -/
def skip_list.lower_bound (lt : α → α → Bool) (sl : skip_list α) (v : α) :
    Option (SNode α) :=
  (descend (fun x => lt x v) sl.current_level sl.nodes).head?

/-- `upper_bound(const T&)` (lines 609-618): descend advancing while the
successor is not greater than the value (`!comp(value, succ)`, line 612)
and return the iterator at the resulting level-0 successor. -/
def skip_list.upper_bound (lt : α → α → Bool) (sl : skip_list α) (v : α) :
    Option (SNode α) :=
  (descend (fun x => !(lt v x)) sl.current_level sl.nodes).head?

/-- `operator==` (lines 649-654): sizes must match, then
`std::equal(begin(), end(), other.begin())` compares the two traversals
element by element with the element type's equality; over ranges of equal
length that is exactly equality of the traversal lists (the length of a
traversal equals `element_count` by the size invariant). -/
def skip_list.beq [DecidableEq α] (a b : skip_list α) : Bool :=
  if a.element_count ≠ b.element_count then false
  else decide (a.values = b.values)

/-- `random_level()`'s loop (lines 676-682), with the pseudo-random draws
abstracted to the Boolean outcomes `coins idx` of `dist(gen) < PROBABILITY`:
`while (coin && level < MAX_LEVEL) ++level;`.  Total (the loop provably
terminates): the measure `MAX_LEVEL - level` decreases on every iteration. -/
def randomLevelAux (coins : Nat → Bool) (idx level : Nat) : Nat :=
  if h : coins idx = true ∧ level < MAX_LEVEL then
    randomLevelAux coins (idx + 1) (level + 1)
  else level
termination_by MAX_LEVEL - level
decreasing_by
  exact Nat.sub_succ_lt_self _ _ h.2

/-- `random_level()` (lines 676-682), starting from `level = 0` and the
first unconsumed draw. -/
def random_level (coins : Nat → Bool) : Nat := randomLevelAux coins 0 0

/-- One public mutating operation, for stating state-invariant claims:
`insert(value)` with the level the generator would draw, `erase(value)`,
or `erase(iterator)` with an arbitrary (possibly stale or foreign)
position handle. -/
inductive SLOp (α : Type) where
  | insertOp (v : α) (lvl : Nat)
  | eraseValueOp (v : α)
  | erasePosOp (pos : Option (SNode α))

/-- Apply one operation to a container state, keeping the new state. -/
def applyOp (lt : α → α → Bool) (sl : skip_list α) : SLOp α → skip_list α
  | .insertOp v lvl => (skip_list.insert lt sl v lvl).1
  | .eraseValueOp v => (skip_list.erase_value lt sl v).1
  | .erasePosOp p => (skip_list.erase_pos lt sl p).1

/-- Run a sequence of operations on an initially empty container. -/
def runOps (lt : α → α → Bool) (ops : List (SLOp α)) : skip_list α :=
  ops.foldl (applyOp lt) emptySL

/-- Repeated single insertion, as the range-insert overload (lines 386-391)
performs, each element with the level the generator draws for it. -/
def insertAll (lt : α → α → Bool) (sl : skip_list α) :
    List (α × Nat) → skip_list α
  | [] => sl
  | (v, lvl) :: rest => insertAll lt (skip_list.insert lt sl v lvl).1 rest

/-- The strict-weak-order laws required of the `Compare` functor by the
container's contract (`std::less<T>` satisfies them): irreflexivity,
transitivity, and the comparison-transfer law (if `a < c` then for any `b`,
`a < b` or `b < c`), which is equivalent to transitivity of
incomparability. -/
structure IsSWO (lt : α → α → Bool) : Prop where
  irrefl : ∀ a, lt a a = false
  lt_trans : ∀ a b c, lt a b = true → lt b c = true → lt a c = true
  comp_trans : ∀ a b c, lt a c = true → lt a b = true ∨ lt b c = true

/-- The default comparator `std::less<int>` on `Int`, for concrete runs. -/
def intLt (a b : Int) : Bool := decide (a < b)

/-- `intLt` is a strict weak order. -/
theorem intLt_swo : IsSWO intLt := by
  refine ⟨?_, ?_, ?_⟩
  · intro a
    simp [intLt]
  · intro a b c h1 h2
    simp only [intLt, decide_eq_true_eq] at *
    omega
  · intro a b c h1
    simp only [intLt, decide_eq_true_eq] at *
    omega

/-- Strict ascent of a node list under the comparator. -/
abbrev sortedNodes (lt : α → α → Bool) (l : List (SNode α)) : Prop :=
  l.Pairwise (fun a b => lt a.value b.value = true)

/-! ### The descent engine: structural lemmas -/

/-- The bounded walk ignores its bound on an empty suffix. -/
theorem walkLevelAux_nil (p : α → Bool) (i : Nat) :
    ∀ fuel, walkLevelAux p i fuel [] = []
  | 0 => rfl
  | _ + 1 => rfl

/-- Unfolding of the bounded walk, loop-exit case. -/
theorem walkLevelAux_succ_nil (p : α → Bool) (i fuel : Nat)
    {s : List (SNode α)}
    (h : s.dropWhile (fun n => decide (n.height < i)) = []) :
    walkLevelAux p i (fuel + 1) s = s := by
  show (match s.dropWhile (fun n => decide (n.height < i)) with
    | [] => s
    | n :: rest => if p n.value then walkLevelAux p i fuel rest else s) = s
  rw [h]

/-- Unfolding of the bounded walk, loop-step case. -/
theorem walkLevelAux_succ_cons (p : α → Bool) (i fuel : Nat)
    {s : List (SNode α)} {n : SNode α} {rest : List (SNode α)}
    (h : s.dropWhile (fun m => decide (m.height < i)) = n :: rest) :
    walkLevelAux p i (fuel + 1) s
      = if p n.value then walkLevelAux p i fuel rest else s := by
  show (match s.dropWhile (fun m => decide (m.height < i)) with
    | [] => s
    | n :: rest => if p n.value then walkLevelAux p i fuel rest else s)
    = if p n.value then walkLevelAux p i fuel rest else s
  rw [h]

/-- Any two sufficient bounds give the same walk result: the walk advances
past at least one suffix node per iteration, so it exits before either
bound runs out. -/
theorem walkLevelAux_fuel (p : α → Bool) (i : Nat) :
    ∀ (f1 : Nat) (s : List (SNode α)) (f2 : Nat), s.length ≤ f1 →
      s.length ≤ f2 → walkLevelAux p i f1 s = walkLevelAux p i f2 s := by
  intro f1
  induction f1 with
  | zero =>
    intro s f2 h1 h2
    have hs : s = [] := List.eq_nil_of_length_eq_zero (Nat.le_zero.mp h1)
    subst hs
    rw [walkLevelAux_nil, walkLevelAux_nil]
  | succ k ih =>
    intro s f2 h1 h2
    cases f2 with
    | zero =>
      have hs : s = [] := List.eq_nil_of_length_eq_zero (Nat.le_zero.mp h2)
      subst hs
      rw [walkLevelAux_nil, walkLevelAux_nil]
    | succ k2 =>
      cases hdw : s.dropWhile (fun m => decide (m.height < i)) with
      | nil => rw [walkLevelAux_succ_nil p i k hdw, walkLevelAux_succ_nil p i k2 hdw]
      | cons n rest =>
        rw [walkLevelAux_succ_cons p i k hdw, walkLevelAux_succ_cons p i k2 hdw]
        by_cases hp : p n.value
        · rw [if_pos hp, if_pos hp]
          have hsub : List.Sublist (n :: rest) s := by
            rw [← hdw]
            exact List.dropWhile_sublist _
          have hle := hsub.length_le
          simp only [List.length_cons] at hle
          exact ih rest k2 (by omega) (by omega)
        · rw [if_neg hp, if_neg hp]

/-- Loop-exit case of the level walk: no level-`i` successor remains. -/
theorem walkLevel_of_nil (p : α → Bool) (i : Nat) {s : List (SNode α)}
    (h : s.dropWhile (fun n => decide (n.height < i)) = []) :
    walkLevel p i s = s := by
  cases s with
  | nil => rfl
  | cons a t => exact walkLevelAux_succ_nil p i t.length h

/-- Loop-step case of the level walk: the next level-`i` successor is `n`. -/
theorem walkLevel_of_cons (p : α → Bool) (i : Nat) {s : List (SNode α)}
    {n : SNode α} {rest : List (SNode α)}
    (h : s.dropWhile (fun m => decide (m.height < i)) = n :: rest) :
    walkLevel p i s = if p n.value then walkLevel p i rest else s := by
  cases s with
  | nil => simp at h
  | cons a t =>
    have h0 : walkLevel p i (a :: t) = walkLevelAux p i (t.length + 1) (a :: t) := rfl
    rw [h0, walkLevelAux_succ_cons p i t.length h]
    by_cases hp : p n.value
    · rw [if_pos hp, if_pos hp]
      have hsub : List.Sublist (n :: rest) (a :: t) := by
        rw [← h]
        exact List.dropWhile_sublist _
      have hle := hsub.length_le
      simp only [List.length_cons] at hle
      exact walkLevelAux_fuel p i t.length rest rest.length (by omega) (Nat.le_refl _)
    · rw [if_neg hp, if_neg hp]

/-- Case analysis on the level walk following its loop structure: either no
level-`i` successor remains, or the walk steps past one and continues on
the suffix after it. -/
theorem walkLevel_induct (p : α → Bool) (i : Nat)
    (motive : List (SNode α) → Prop)
    (case1 : ∀ s, s.dropWhile (fun n => decide (n.height < i)) = [] → motive s)
    (case2 : ∀ s n rest, s.dropWhile (fun m => decide (m.height < i)) = n :: rest →
        p n.value = true → motive rest → motive s)
    (case3 : ∀ s n rest, s.dropWhile (fun m => decide (m.height < i)) = n :: rest →
        ¬p n.value = true → motive s) :
    ∀ s, motive s := by
  have key : ∀ (fuel : Nat) (s : List (SNode α)), s.length ≤ fuel → motive s := by
    intro fuel
    induction fuel with
    | zero =>
      intro s hle
      have hs : s = [] := List.eq_nil_of_length_eq_zero (Nat.le_zero.mp hle)
      subst hs
      exact case1 [] rfl
    | succ k ih =>
      intro s hle
      cases hdw : s.dropWhile (fun m => decide (m.height < i)) with
      | nil => exact case1 s hdw
      | cons n rest =>
        by_cases hp : p n.value
        · refine case2 s n rest hdw hp (ih rest ?_)
          have hsub : List.Sublist (n :: rest) s := by
            rw [← hdw]
            exact List.dropWhile_sublist _
          have hle2 := hsub.length_le
          simp only [List.length_cons] at hle2
          omega
        · exact case3 s n rest hdw hp
  exact fun s => key s.length s (Nat.le_refl _)

/-- At level 0 every node is on the chain, so the walk is exactly
`dropWhile` of the step predicate (the final `current = current->forward[0]`
position, line 341). -/
theorem walkLevel_zero (p : α → Bool) (s : List (SNode α)) :
    walkLevel p 0 s = s.dropWhile (fun n => p n.value) := by
  induction s with
  | nil => exact walkLevel_of_nil p 0 rfl
  | cons n rest ih =>
    have h0 : (n :: rest).dropWhile (fun m => decide (m.height < 0)) = n :: rest := by
      simp
    rw [walkLevel_of_cons p 0 h0, List.dropWhile_cons, ih]

/-- The walk only moves forward: its output is a suffix of its input. -/
theorem walkLevel_suffix (p : α → Bool) (i : Nat) (s : List (SNode α)) :
    ∃ t, s = t ++ walkLevel p i s := by
  induction s using walkLevel_induct p i with
  | case1 s hnil =>
    exact ⟨[], by rw [walkLevel_of_nil p i hnil]; rfl⟩
  | case2 s n rest hcons hp ih =>
    obtain ⟨t1, ht1⟩ := ih
    refine ⟨s.takeWhile (fun m => decide (m.height < i)) ++ n :: t1, ?_⟩
    rw [walkLevel_of_cons p i hcons, if_pos hp]
    conv_lhs => rw [← List.takeWhile_append_dropWhile (fun m => decide (m.height < i)) s,
      hcons, ht1]
    simp
  | case3 s n rest hcons hp =>
    refine ⟨[], ?_⟩
    rw [walkLevel_of_cons p i hcons, if_neg hp]
    rfl

/-- On a sorted chain, every node the walk moves past satisfies the step
predicate, provided the predicate is downward closed along the order (the
nodes jumped over at level `i` are smaller than the node stopped at). -/
theorem walkLevel_spec (lt : α → α → Bool) (p : α → Bool)
    (hdc : ∀ a b, lt a b = true → p b = true → p a = true)
    (i : Nat) (s : List (SNode α)) (hs : sortedNodes lt s) :
    ∃ t, s = t ++ walkLevel p i s ∧ ∀ x ∈ t, p x.value = true := by
  induction s using walkLevel_induct p i with
  | case1 s hnil =>
    exact ⟨[], by rw [walkLevel_of_nil p i hnil]; rfl, by simp⟩
  | case2 s n rest hcons hp ih =>
    have hsplit : s = s.takeWhile (fun m => decide (m.height < i)) ++ n :: rest := by
      conv_lhs => rw [← List.takeWhile_append_dropWhile (fun m => decide (m.height < i)) s]
      rw [hcons]
    have hrest : sortedNodes lt rest := by
      have hsub : List.Sublist rest s := by
        have h1 : List.Sublist (n :: rest) s := by
          rw [← hcons]
          exact List.dropWhile_sublist _
        exact (List.sublist_cons_self n rest).trans h1
      exact hs.sublist hsub
    obtain ⟨t1, ht1, hallt1⟩ := ih hrest
    refine ⟨s.takeWhile (fun m => decide (m.height < i)) ++ n :: t1, ?_, ?_⟩
    · rw [walkLevel_of_cons p i hcons, if_pos hp]
      conv_lhs => rw [hsplit, ht1]
      simp
    · intro x hx
      rcases List.mem_append.mp hx with hx | hx
      · -- a node jumped over at level i, before the stop node n
        have hlt : lt x.value n.value = true := by
          have hcross := (List.pairwise_append.mp (hsplit ▸ hs)).2.2
          exact hcross x hx n (by simp)
        exact hdc _ _ hlt hp
      · rcases List.mem_cons.mp hx with hx | hx
        · rw [hx]; exact hp
        · exact hallt1 x hx
  | case3 s n rest hcons hp =>
    refine ⟨[], ?_, by simp⟩
    rw [walkLevel_of_cons p i hcons, if_neg hp]
    rfl

/-- The whole descent only moves forward: its result is a level-0 suffix. -/
theorem descend_suffix (p : α → Bool) (L : Nat) (s : List (SNode α)) :
    ∃ t, s = t ++ descend p L s := by
  induction L generalizing s with
  | zero => exact walkLevel_suffix p 0 s
  | succ i ih =>
    obtain ⟨t1, ht1⟩ := walkLevel_suffix p (i + 1) s
    obtain ⟨t2, ht2⟩ := ih (walkLevel p (i + 1) s)
    refine ⟨t1 ++ t2, ?_⟩
    show s = (t1 ++ t2) ++ descend p i (walkLevel p (i + 1) s)
    rw [List.append_assoc, ← ht2, ← ht1]

/-- Key functional characterization: on a sorted chain the multi-level
descent stops exactly where a plain level-0 scan would, so the level-0
successor at the stop position heads `dropWhile` of the step predicate. -/
theorem descend_eq_dropWhile (lt : α → α → Bool) (p : α → Bool)
    (hdc : ∀ a b, lt a b = true → p b = true → p a = true)
    (L : Nat) (s : List (SNode α)) (hs : sortedNodes lt s) :
    descend p L s = s.dropWhile (fun n => p n.value) := by
  induction L generalizing s with
  | zero => exact walkLevel_zero p s
  | succ i ih =>
    obtain ⟨t, ht, hall⟩ := walkLevel_spec lt p hdc (i + 1) s hs
    have hw : sortedNodes lt (walkLevel p (i + 1) s) := by
      refine hs.sublist ?_
      conv_rhs => rw [ht]
      exact List.sublist_append_right t _
    show descend p i (walkLevel p (i + 1) s) = s.dropWhile (fun n => p n.value)
    rw [ih _ hw]
    conv_rhs => rw [ht]
    exact (List.dropWhile_append_of_pos (fun a ha => hall a ha)).symm

/-- Recover a prefix from its complementary suffix by length arithmetic,
as the splice code does with the `update` array positions. -/
theorem take_sub_length {β : Type} (l t u : List β) (h : l = t ++ u) :
    l.take (l.length - u.length) = t := by
  subst h
  rw [List.length_append, Nat.add_sub_cancel, List.take_left]

/-- The head of `dropWhile` is the first list element failing the
predicate. -/
theorem head?_dropWhile_eq_find? {β : Type} (f : β → Bool) (l : List β) :
    (l.dropWhile f).head? = l.find? (fun x => !f x) := by
  induction l with
  | nil => rfl
  | cons a l ih =>
    rw [List.dropWhile_cons]
    by_cases h : f a
    · rw [if_pos h, ih, List.find?_cons_of_neg]
      simp [h]
    · rw [if_neg h, List.find?_cons_of_pos]
      · rfl
      · simp [h]

/-! ### Characterizing insert and erase on sorted states -/

/-- The node a `dropWhile` stops at fails the predicate. -/
theorem dropWhile_head_not {β : Type} (f : β → Bool) (l : List β) {c : β}
    {t : List β} (h : l.dropWhile f = c :: t) : f c = false := by
  have hw := List.head?_dropWhile_not f l
  rw [h] at hw
  simpa using hw

/-- On a sorted chain, an element comparing equal to `v` (neither less nor
greater) is exactly the first element not less than `v`: it heads the
`dropWhile` of the strict-less predicate. -/
theorem head_dropWhile_of_eqcomp (lt : α → α → Bool) (h : IsSWO lt)
    {l : List (SNode α)} {v : α} (hs : sortedNodes lt l) {x : SNode α}
    (hx : x ∈ l) (h1 : lt x.value v = false) (h2 : lt v x.value = false) :
    (l.dropWhile (fun n => lt n.value v)).head? = some x := by
  have hsplit : l = l.takeWhile (fun n => lt n.value v)
      ++ l.dropWhile (fun n => lt n.value v) :=
    (List.takeWhile_append_dropWhile _ l).symm
  have hxdW : x ∈ l.dropWhile (fun n => lt n.value v) := by
    rcases List.mem_append.mp (hsplit ▸ hx) with hmem | hmem
    · have := List.mem_takeWhile_imp hmem
      rw [h1] at this
      exact Bool.noConfusion this
    · exact hmem
  cases hdW : l.dropWhile (fun n => lt n.value v) with
  | nil =>
    rw [hdW] at hxdW
    simp at hxdW
  | cons c dW2 =>
    rw [hdW] at hxdW
    have hcfalse : lt c.value v = false := dropWhile_head_not _ l hdW
    rcases List.mem_cons.mp hxdW with hxc | hxdW2
    · subst hxc
      rfl
    · exfalso
      have hsorted : sortedNodes lt (c :: dW2) := by
        refine hs.sublist ?_
        rw [← hdW]
        exact List.dropWhile_sublist _
      have hcx : lt c.value x.value = true :=
        (List.pairwise_cons.mp hsorted).1 x hxdW2
      rcases h.comp_trans c.value v x.value hcx with hcv | hvx
      · rw [hcv] at hcfalse
        exact Bool.noConfusion hcfalse
      · rw [hvx] at h2
        exact Bool.noConfusion h2

/-- Splicing a node at a known prefix/suffix boundary. -/
theorem splice_eq (sl : skip_list α) (v : α) (lvl : Nat) (t u : List (SNode α))
    (h : sl.nodes = t ++ u) :
    skip_list.splice sl v lvl u =
      ({ nodes := t ++ ⟨sl.nextId, v, lvl⟩ :: u,
         current_level := max sl.current_level lvl,
         element_count := sl.element_count + 1,
         nextId := sl.nextId + 1,
         tail := if u.isEmpty then some sl.nextId else sl.tail },
       some ⟨sl.nextId, v, lvl⟩, true) := by
  simp only [skip_list.splice]
  rw [take_sub_length sl.nodes t u h]

/-- On a sorted state, inserting a value that compares equal to the element
heading the descent result is rejected: the existing iterator and `false`
are returned and the state is untouched (lines 343-345). -/
theorem insert_eq_of_dup (lt : α → α → Bool) (sl : skip_list α) (v : α)
    (lvl : Nat)
    (htr : ∀ a b c, lt a b = true → lt b c = true → lt a c = true)
    (hs : sortedNodes lt sl.nodes) {c : SNode α}
    (hc : (sl.nodes.dropWhile (fun n => lt n.value v)).head? = some c)
    (h1 : lt v c.value = false) (h2 : lt c.value v = false) :
    skip_list.insert lt sl v lvl = (sl, some c, false) := by
  have hdesc : descend (fun x => lt x v) sl.current_level sl.nodes
      = sl.nodes.dropWhile (fun n => lt n.value v) :=
    descend_eq_dropWhile lt _ (fun a b hab hb => htr a b v hab hb) _ _ hs
  simp only [skip_list.insert, hdesc, hc, h1, h2]
  rfl

/-- On a sorted state, inserting a value with no equal element present
splices the freshly allocated node exactly between the strictly-smaller
prefix and the not-smaller suffix of the level-0 chain (lines 347-366). -/
theorem insert_eq_of_new (lt : α → α → Bool) (sl : skip_list α) (v : α)
    (lvl : Nat)
    (htr : ∀ a b c, lt a b = true → lt b c = true → lt a c = true)
    (hs : sortedNodes lt sl.nodes)
    (hnodup : ∀ c, (sl.nodes.dropWhile (fun n => lt n.value v)).head? = some c →
        (lt v c.value || lt c.value v) = true) :
    skip_list.insert lt sl v lvl =
      ({ nodes := sl.nodes.takeWhile (fun n => lt n.value v) ++
            ⟨sl.nextId, v, lvl⟩ :: sl.nodes.dropWhile (fun n => lt n.value v),
         current_level := max sl.current_level lvl,
         element_count := sl.element_count + 1,
         nextId := sl.nextId + 1,
         tail := if (sl.nodes.dropWhile (fun n => lt n.value v)).isEmpty
                 then some sl.nextId else sl.tail },
       some ⟨sl.nextId, v, lvl⟩, true) := by
  have hdesc : descend (fun x => lt x v) sl.current_level sl.nodes
      = sl.nodes.dropWhile (fun n => lt n.value v) :=
    descend_eq_dropWhile lt _ (fun a b hab hb => htr a b v hab hb) _ _ hs
  have hsplit : sl.nodes = sl.nodes.takeWhile (fun n => lt n.value v)
      ++ sl.nodes.dropWhile (fun n => lt n.value v) :=
    (List.takeWhile_append_dropWhile _ _).symm
  simp only [skip_list.insert, hdesc]
  cases hdW : sl.nodes.dropWhile (fun n => lt n.value v) with
  | nil =>
    rw [hdW] at hsplit
    simp only [List.head?_nil]
    exact splice_eq sl v lvl _ [] hsplit
  | cons c dW2 =>
    rw [hdW] at hsplit
    have hor := hnodup c (by rw [hdW]; rfl)
    have hcond : (!(lt v c.value) && !(lt c.value v)) = false := by
      rw [← Bool.not_or, hor]
      rfl
    simp only [List.head?_cons, hcond, Bool.false_eq_true, if_false]
    exact splice_eq sl v lvl _ (c :: dW2) hsplit

/-! ### Preservation of the sorted-order invariant -/

/-- `insert` keeps the level-0 chain strictly ascending. -/
theorem insert_preserves_sorted (lt : α → α → Bool)
    (htr : ∀ a b c, lt a b = true → lt b c = true → lt a c = true)
    (sl : skip_list α) (v : α) (lvl : Nat) (hs : sortedNodes lt sl.nodes) :
    sortedNodes lt (skip_list.insert lt sl v lvl).1.nodes := by
  cases hdW : sl.nodes.dropWhile (fun n => lt n.value v) with
  | nil =>
    rw [insert_eq_of_new lt sl v lvl htr hs
      (fun c hc => by rw [hdW] at hc; exact Option.noConfusion hc)]
    rw [hdW]
    refine List.pairwise_append.mpr ⟨hs.sublist (List.takeWhile_sublist _), ?_, ?_⟩
    · simp
    · intro a ha b hb
      rcases List.mem_cons.mp hb with rfl | hb2
      · have h3 := List.mem_takeWhile_imp ha
        exact h3
      · simp at hb2
  | cons c dW2 =>
    have hcfalse : lt c.value v = false := by
      have h4 := dropWhile_head_not (fun n => lt n.value v) sl.nodes hdW
      simpa using h4
    by_cases hdup : lt v c.value = false
    · rw [insert_eq_of_dup lt sl v lvl htr hs (by rw [hdW]; rfl) hdup hcfalse]
      exact hs
    · have hvc : lt v c.value = true := by
        cases hEq : lt v c.value
        · exact absurd hEq hdup
        · rfl
      rw [insert_eq_of_new lt sl v lvl htr hs
        (fun c' hc' => by
          rw [hdW] at hc'
          injection hc' with hc''
          subst hc''
          rw [hvc]
          rfl)]
      rw [hdW]
      have hsplit : sl.nodes = sl.nodes.takeWhile (fun n => lt n.value v)
          ++ c :: dW2 := by
        conv_lhs => rw [← List.takeWhile_append_dropWhile (fun n => lt n.value v)
          sl.nodes, hdW]
      have hpa := List.pairwise_append.mp (hsplit ▸ hs)
      refine List.pairwise_append.mpr ⟨hpa.1, ?_, ?_⟩
      · refine List.pairwise_cons.mpr ⟨?_, hpa.2.1⟩
        intro y hy
        rcases List.mem_cons.mp hy with rfl | hy2
        · exact hvc
        · exact htr v c.value y.value hvc ((List.pairwise_cons.mp hpa.2.1).1 y hy2)
      · intro a ha b hb
        rcases List.mem_cons.mp hb with rfl | hb2
        · have h3 := List.mem_takeWhile_imp ha
          exact h3
        · exact hpa.2.2 a ha b hb2

/-- `erase(iterator)` keeps the level-0 chain strictly ascending: it either
leaves the chain alone or removes one node from it. -/
theorem erase_pos_preserves_sorted (lt : α → α → Bool) (sl : skip_list α)
    (pos : Option (SNode α)) (hs : sortedNodes lt sl.nodes) :
    sortedNodes lt (skip_list.erase_pos lt sl pos).1.nodes := by
  cases pos with
  | none => exact hs
  | some nd =>
    simp only [skip_list.erase_pos]
    split
    · exact hs
    · next c rest hdes =>
      split
      · next hid =>
        obtain ⟨t, ht⟩ := descend_suffix (fun x => lt x nd.value)
          sl.current_level sl.nodes
        rw [hdes] at ht
        show sortedNodes lt
          (sl.nodes.take (sl.nodes.length - (c :: rest).length) ++ rest)
        rw [take_sub_length _ _ _ ht]
        refine hs.sublist ?_
        conv_rhs => rw [ht]
        exact List.Sublist.append_left (List.sublist_cons_self c rest) t
      · exact hs

/-- `erase(value)` keeps the level-0 chain strictly ascending. -/
theorem erase_value_preserves_sorted (lt : α → α → Bool) (sl : skip_list α)
    (v : α) (hs : sortedNodes lt sl.nodes) :
    sortedNodes lt (skip_list.erase_value lt sl v).1.nodes := by
  simp only [skip_list.erase_value]
  cases hf : skip_list.find lt sl v with
  | none => exact hs
  | some it => exact erase_pos_preserves_sorted lt sl (some it) hs

/-- Every state reachable by public mutations from a sorted state is
sorted. -/
theorem foldl_applyOp_sorted (lt : α → α → Bool)
    (htr : ∀ a b c, lt a b = true → lt b c = true → lt a c = true)
    (ops : List (SLOp α)) :
    ∀ sl : skip_list α, sortedNodes lt sl.nodes →
      sortedNodes lt (ops.foldl (applyOp lt) sl).nodes := by
  induction ops with
  | nil => exact fun sl hs => hs
  | cons op rest ih =>
    intro sl hs
    refine ih (applyOp lt sl op) ?_
    cases op with
    | insertOp v lvl => exact insert_preserves_sorted lt htr sl v lvl hs
    | eraseValueOp v => exact erase_value_preserves_sorted lt sl v hs
    | erasePosOp p => exact erase_pos_preserves_sorted lt sl p hs

/-! ### Claim theorems: invariants and queries -/

/-- A concrete sorted container state used by the witnesses: the result of
inserting 3, 5, 7 (ids 0, 1, 2; heights 0, 2, 1). -/
def wsl : skip_list Int :=
  { nodes := [⟨0, 3, 0⟩, ⟨1, 5, 2⟩, ⟨2, 7, 1⟩], current_level := 2,
    element_count := 3, nextId := 3, tail := some 2 }

/-- C1: for every sequence of insert and erase operations applied to an
initially empty container, the in-order traversal (begin to end, following
level-0 successor links) yields a strictly ascending sequence under the
ordering relation, and no two traversed elements compare equal. -/
theorem sorted_invariant (lt : α → α → Bool) (h : IsSWO lt)
    (ops : List (SLOp α)) :
    (runOps lt ops).values.Pairwise (fun a b => lt a b = true) ∧
    (runOps lt ops).values.Pairwise
      (fun a b => ¬(lt a b = false ∧ lt b a = false)) := by
  have hnodes : sortedNodes lt (runOps lt ops).nodes :=
    foldl_applyOp_sorted lt h.lt_trans ops emptySL List.Pairwise.nil
  have hvals : (runOps lt ops).values.Pairwise (fun a b => lt a b = true) := by
    unfold skip_list.values
    exact List.pairwise_map.mpr hnodes
  refine ⟨hvals, hvals.imp ?_⟩
  intro a b hab hcon
  rw [hab] at hcon
  exact Bool.noConfusion hcon.1

/-- Witness for the C1 theorem at a concrete operation sequence (inserts,
an erase by value, and an erase through a foreign handle). -/
theorem sorted_invariant_witness :
    (runOps intLt [SLOp.insertOp 5 2, SLOp.insertOp 3 0, SLOp.insertOp 7 1,
        SLOp.eraseValueOp 5, SLOp.insertOp 4 3,
        SLOp.erasePosOp (some ⟨0, 9, 0⟩)]).values.Pairwise
      (fun a b => intLt a b = true) ∧
    (runOps intLt [SLOp.insertOp 5 2, SLOp.insertOp 3 0, SLOp.insertOp 7 1,
        SLOp.eraseValueOp 5, SLOp.insertOp 4 3,
        SLOp.erasePosOp (some ⟨0, 9, 0⟩)]).values.Pairwise
      (fun a b => ¬(intLt a b = false ∧ intLt b a = false)) :=
  sorted_invariant intLt intLt_swo
    [SLOp.insertOp 5 2, SLOp.insertOp 3 0, SLOp.insertOp 7 1,
     SLOp.eraseValueOp 5, SLOp.insertOp 4 3,
     SLOp.erasePosOp (some ⟨0, 9, 0⟩)]

/-- C2: inserting a value comparing equal (neither less nor greater) to an
element already present returns the position of the existing equal element
with a `false` flag and performs no mutation: the state, hence the size and
the traversal sequence, are unchanged. -/
theorem insert_duplicate_rejected (lt : α → α → Bool) (h : IsSWO lt)
    (sl : skip_list α) (v : α) (lvl : Nat) (hs : sortedNodes lt sl.nodes)
    (x : SNode α) (hx : x ∈ sl.nodes)
    (h1 : lt x.value v = false) (h2 : lt v x.value = false) :
    skip_list.insert lt sl v lvl = (sl, some x, false) ∧
    (skip_list.insert lt sl v lvl).1.values = sl.values ∧
    (skip_list.insert lt sl v lvl).1.size = sl.size := by
  have hd := head_dropWhile_of_eqcomp lt h hs hx h1 h2
  have heq := insert_eq_of_dup lt sl v lvl h.lt_trans hs hd h2 h1
  exact ⟨heq, by rw [heq], by rw [heq]⟩

/-- Witness for the C2 theorem: re-inserting 5 into `wsl`. -/
theorem insert_duplicate_rejected_witness :
    skip_list.insert intLt wsl 5 4 = (wsl, some ⟨1, 5, 2⟩, false) ∧
    (skip_list.insert intLt wsl 5 4).1.values = wsl.values ∧
    (skip_list.insert intLt wsl 5 4).1.size = wsl.size :=
  insert_duplicate_rejected intLt intLt_swo wsl 5 4 (by decide) ⟨1, 5, 2⟩
    (by decide) (by decide) (by decide)

/-- C3: `lower_bound(v)` returns the position of the first element in
traversal order that is not less than `v`, or the end sentinel (`none`)
when every element is less than `v`. -/
theorem lower_bound_correct (lt : α → α → Bool) (h : IsSWO lt)
    (sl : skip_list α) (v : α) (hs : sortedNodes lt sl.nodes) :
    skip_list.lower_bound lt sl v
      = sl.nodes.find? (fun n => !(lt n.value v)) := by
  unfold skip_list.lower_bound
  rw [descend_eq_dropWhile lt _ (fun a b hab hb => h.lt_trans a b v hab hb) _ _ hs]
  exact head?_dropWhile_eq_find? _ _

/-- Witness for the C3 theorem: `lower_bound(4)` on `wsl` (finds node 5). -/
theorem lower_bound_correct_witness :
    skip_list.lower_bound intLt wsl 4
      = wsl.nodes.find? (fun n => !(intLt n.value 4)) :=
  lower_bound_correct intLt intLt_swo wsl 4 (by decide)

/-- C4: `upper_bound(v)` returns the position of the first element in
traversal order that is strictly greater than `v`, or the end sentinel
(`none`) when no element exceeds `v`. -/
theorem upper_bound_correct (lt : α → α → Bool) (h : IsSWO lt)
    (sl : skip_list α) (v : α) (hs : sortedNodes lt sl.nodes) :
    skip_list.upper_bound lt sl v
      = sl.nodes.find? (fun n => lt v n.value) := by
  unfold skip_list.upper_bound
  have hdc : ∀ a b : α, lt a b = true
      → (fun x => !(lt v x)) b = true → (fun x => !(lt v x)) a = true := by
    intro a b hab hb
    cases hva : lt v a
    · simp only [hva]
      rfl
    · exfalso
      have hvb := h.lt_trans v a b hva hab
      simp only [hvb] at hb
      exact Bool.noConfusion hb
  rw [descend_eq_dropWhile lt _ hdc _ _ hs, head?_dropWhile_eq_find?]
  simp only [Bool.not_not]

/-- Witness for the C4 theorem: `upper_bound(5)` on `wsl` (finds node 7). -/
theorem upper_bound_correct_witness :
    skip_list.upper_bound intLt wsl 5
      = wsl.nodes.find? (fun n => intLt 5 n.value) :=
  upper_bound_correct intLt intLt_swo wsl 5 (by decide)

/-- On a sorted state, `find(v)` returns the iterator of the element
comparing equal to `v` when one is present. -/
theorem find_eq_some_of_eqcomp (lt : α → α → Bool) (h : IsSWO lt)
    (sl : skip_list α) (v : α) (hs : sortedNodes lt sl.nodes) {x : SNode α}
    (hx : x ∈ sl.nodes) (h1 : lt x.value v = false)
    (h2 : lt v x.value = false) :
    skip_list.find lt sl v = some x := by
  have hdesc : descend (fun y => lt y v) sl.current_level sl.nodes
      = sl.nodes.dropWhile (fun n => lt n.value v) :=
    descend_eq_dropWhile lt _ (fun a b hab hb => h.lt_trans a b v hab hb) _ _ hs
  have hd := head_dropWhile_of_eqcomp lt h hs hx h1 h2
  simp only [skip_list.find, hdesc, hd, h1, h2]
  rfl

/-- On a sorted state, `find(v)` returns the end sentinel when every
element compares unequal to `v` (less or greater). -/
theorem find_eq_none_of_absent (lt : α → α → Bool) (h : IsSWO lt)
    (sl : skip_list α) (v : α) (hs : sortedNodes lt sl.nodes)
    (habs : ∀ x ∈ sl.nodes, (lt x.value v || lt v x.value) = true) :
    skip_list.find lt sl v = none := by
  have hdesc : descend (fun y => lt y v) sl.current_level sl.nodes
      = sl.nodes.dropWhile (fun n => lt n.value v) :=
    descend_eq_dropWhile lt _ (fun a b hab hb => h.lt_trans a b v hab hb) _ _ hs
  simp only [skip_list.find, hdesc]
  cases hdW : sl.nodes.dropWhile (fun n => lt n.value v) with
  | nil => rfl
  | cons c t =>
    have hcf : lt c.value v = false := by
      have h4 := dropWhile_head_not (fun n => lt n.value v) sl.nodes hdW
      simpa using h4
    have hcmem : c ∈ sl.nodes :=
      (List.dropWhile_sublist _).subset (hdW ▸ List.mem_cons_self c t)
    have hor := habs c hcmem
    rw [hcf, Bool.false_or] at hor
    simp only [List.head?_cons, hor, hcf]
    rfl

/-- C5: `erase(v)` removes exactly the one element comparing equal to `v`
when such an element is present, returning 1, decreasing the size by one
and keeping every other element in its relative order; when no element
compares equal it returns 0 with the container entirely unchanged. -/
theorem erase_value_correct (lt : α → α → Bool) (h : IsSWO lt)
    (sl : skip_list α) (v : α) (hs : sortedNodes lt sl.nodes)
    (hcnt : sl.element_count = sl.nodes.length) :
    (∀ x, x ∈ sl.nodes → lt x.value v = false → lt v x.value = false →
      sl.nodes.dropWhile (fun n => lt n.value v)
          = x :: (sl.nodes.dropWhile (fun n => lt n.value v)).tail ∧
      (skip_list.erase_value lt sl v).2 = 1 ∧
      (skip_list.erase_value lt sl v).1.nodes
          = sl.nodes.takeWhile (fun n => lt n.value v)
              ++ (sl.nodes.dropWhile (fun n => lt n.value v)).tail ∧
      (skip_list.erase_value lt sl v).1.element_count + 1
          = sl.element_count) ∧
    ((∀ x ∈ sl.nodes, (lt x.value v || lt v x.value) = true) →
      skip_list.erase_value lt sl v = (sl, 0)) := by
  constructor
  · intro x hx h1 h2
    have hd := head_dropWhile_of_eqcomp lt h hs hx h1 h2
    obtain ⟨dW2, hdW⟩ : ∃ t, sl.nodes.dropWhile (fun n => lt n.value v)
        = x :: t := by
      cases hdW0 : sl.nodes.dropWhile (fun n => lt n.value v) with
      | nil =>
        rw [hdW0] at hd
        exact Option.noConfusion hd
      | cons c t =>
        rw [hdW0] at hd
        injection hd with hcx
        exact ⟨t, by rw [hcx]⟩
    have hsplit : sl.nodes = sl.nodes.takeWhile (fun n => lt n.value v)
        ++ x :: dW2 := by
      conv_lhs => rw [← List.takeWhile_append_dropWhile
        (fun n => lt n.value v) sl.nodes, hdW]
    have hfind : skip_list.find lt sl v = some x :=
      find_eq_some_of_eqcomp lt h sl v hs hx h1 h2
    have hall : ∀ a ∈ sl.nodes.takeWhile (fun n => lt n.value v),
        (fun n : SNode α => lt n.value x.value) a = true := by
      intro a ha
      have hav := List.mem_takeWhile_imp ha
      rcases h.comp_trans a.value x.value v hav with hax | hxv
      · exact hax
      · rw [hxv] at h1
        exact Bool.noConfusion h1
    have hdesc2 : descend (fun y => lt y x.value) sl.current_level sl.nodes
        = x :: dW2 := by
      rw [descend_eq_dropWhile lt _
        (fun a b hab hb => h.lt_trans a b x.value hab hb) _ _ hs]
      conv_lhs => rw [hsplit]
      rw [List.dropWhile_append_of_pos hall,
        List.dropWhile_cons_of_neg (by simp [h.irrefl x.value])]
    refine ⟨?_, ?_, ?_, ?_⟩
    · rw [hdW]
      simp
    · simp only [skip_list.erase_value, hfind]
    · simp only [skip_list.erase_value, hfind, skip_list.erase_pos, hdesc2,
        eq_self_iff_true, if_true]
      rw [take_sub_length _ _ _ hsplit, hdW]
      simp
    · simp only [skip_list.erase_value, hfind, skip_list.erase_pos, hdesc2,
        eq_self_iff_true, if_true]
      show sl.element_count - 1 + 1 = sl.element_count
      have hged : 1 ≤ sl.nodes.length := by
        rw [hsplit]
        simp only [List.length_append, List.length_cons]
        omega
      omega
  · intro habs
    have hfind : skip_list.find lt sl v = none :=
      find_eq_none_of_absent lt h sl v hs habs
    simp only [skip_list.erase_value, hfind]

/-- Witness for the C5 theorem, present case: erasing 5 from `wsl`. -/
theorem erase_value_correct_witness :
    wsl.nodes.dropWhile (fun n => intLt n.value 5)
        = ⟨1, 5, 2⟩ :: (wsl.nodes.dropWhile (fun n => intLt n.value 5)).tail ∧
    (skip_list.erase_value intLt wsl 5).2 = 1 ∧
    (skip_list.erase_value intLt wsl 5).1.nodes
        = wsl.nodes.takeWhile (fun n => intLt n.value 5)
            ++ (wsl.nodes.dropWhile (fun n => intLt n.value 5)).tail ∧
    (skip_list.erase_value intLt wsl 5).1.element_count + 1
        = wsl.element_count :=
  (erase_value_correct intLt intLt_swo wsl 5 (by decide) (by decide)).1
    ⟨1, 5, 2⟩ (by decide) (by decide) (by decide)

/-- C6: `erase(position)` fails safe.  The end sentinel is a no-op
returning the end sentinel; and when the handle's node is not the node
found at the level-0 descent position for its value (a stale or foreign
handle), the operation returns the end sentinel and leaves the container
state (links, size, current level, tail) entirely unchanged. -/
theorem erase_pos_fail_safe (lt : α → α → Bool) (sl : skip_list α)
    (nd : SNode α)
    (hmis : ((descend (fun x => lt x nd.value) sl.current_level
        sl.nodes).head?.all (fun c => c.id != nd.id)) = true) :
    skip_list.erase_pos lt sl none = (sl, none) ∧
    skip_list.erase_pos lt sl (some nd) = (sl, none) := by
  refine ⟨rfl, ?_⟩
  simp only [skip_list.erase_pos]
  split
  · rfl
  · next c rest hdes =>
    rw [hdes] at hmis
    have hne : ¬c.id = nd.id := by simpa using hmis
    rw [if_neg hne]

/-- Witness for the C6 theorem: a foreign handle into `wsl` carrying the
stored value 5 but a node identity (9) different from the live node. -/
theorem erase_pos_fail_safe_witness :
    skip_list.erase_pos intLt wsl none = (wsl, none) ∧
    skip_list.erase_pos intLt wsl (some ⟨9, 5, 0⟩) = (wsl, none) :=
  erase_pos_fail_safe intLt wsl ⟨9, 5, 0⟩ (by decide)

set_option linter.unusedVariables false in
/-- C8: `operator==` returns true exactly when the sizes match and the two
in-order traversals are element-wise equal (as equal-length lists, i.e.
pairwise equal at every position).  The size invariant hypotheses tie
`element_count` to the traversal length, as `std::equal` over the
equal-size ranges requires. -/
theorem beq_correct [DecidableEq α] (a b : skip_list α)
    (ha : a.element_count = a.nodes.length)
    (hb : b.element_count = b.nodes.length) :
    (skip_list.beq a b = true) ↔ (a.size = b.size ∧ a.values = b.values) := by
  unfold skip_list.beq skip_list.size
  by_cases hc : a.element_count = b.element_count
  · simp [hc]
  · simp [hc]

/-- Witness for the C8 theorem: `wsl` compared with itself. -/
theorem beq_correct_witness :
    (skip_list.beq wsl wsl = true) ↔
      (wsl.size = wsl.size ∧ wsl.values = wsl.values) :=
  beq_correct wsl wsl (by decide) (by decide)

/-- Bound for the level-generator loop: starting at any level not above
`MAX_LEVEL`, it never goes above `MAX_LEVEL`. -/
theorem randomLevelAux_le (coins : Nat → Bool) :
    ∀ (fuel idx level : Nat), MAX_LEVEL - level ≤ fuel → level ≤ MAX_LEVEL →
      randomLevelAux coins idx level ≤ MAX_LEVEL := by
  intro fuel
  induction fuel with
  | zero =>
    intro idx level hf hl
    rw [randomLevelAux]
    have : ¬(coins idx = true ∧ level < MAX_LEVEL) := by
      intro hcon
      omega
    rw [dif_neg this]
    exact hl
  | succ k ih =>
    intro idx level hf hl
    rw [randomLevelAux]
    by_cases hcon : coins idx = true ∧ level < MAX_LEVEL
    · rw [dif_pos hcon]
      exact ih (idx + 1) (level + 1) (by omega) (by omega)
    · rw [dif_neg hcon]
      exact hl

/-- C9: for every pseudo-random draw outcome stream, the level generator
terminates (it is a total function, its loop measure `MAX_LEVEL - level`
strictly decreasing) and returns a height in `[0, MAX_LEVEL]` with
`MAX_LEVEL = 16`, so a new node's height always fits the head sentinel's
fixed successor-array capacity and every splice level index is in
bounds. -/
theorem random_level_bounded (coins : Nat → Bool) :
    random_level coins ≤ MAX_LEVEL ∧ MAX_LEVEL = 16 :=
  ⟨randomLevelAux_le coins MAX_LEVEL 0 0 (Nat.le_refl _) (Nat.zero_le _), rfl⟩

/-- C10: the hinted insertion overload ignores its hint entirely: for
every container state, every hint iterator, and every value, it returns
the position `insert(value).first` together with exactly the state
`insert(value)` produces, identically for any two hints. -/
theorem insert_hint_ignores_hint (lt : α → α → Bool) (sl : skip_list α)
    (hint hint2 : Option (SNode α)) (v : α) (lvl : Nat) :
    skip_list.insert_hint lt sl hint v lvl
        = ((skip_list.insert lt sl v lvl).1,
           (skip_list.insert lt sl v lvl).2.1) ∧
    skip_list.insert_hint lt sl hint v lvl
        = skip_list.insert_hint lt sl hint2 v lvl :=
  ⟨rfl, rfl⟩

/-- Bulk insertion of pairwise non-equal values, none comparing equal to an
existing element, adds exactly those values (as a multiset) and keeps the
level-0 chain strictly ascending. -/
theorem insertAll_perm (lt : α → α → Bool) (h : IsSWO lt) :
    ∀ (ps : List (α × Nat)) (sl : skip_list α),
      sortedNodes lt sl.nodes →
      (∀ w ∈ ps.map Prod.fst, ∀ x ∈ sl.nodes,
        (lt x.value w || lt w x.value) = true) →
      (ps.map Prod.fst).Pairwise (fun a b => (lt a b || lt b a) = true) →
      List.Perm (insertAll lt sl ps).values (ps.map Prod.fst ++ sl.values) ∧
      sortedNodes lt (insertAll lt sl ps).nodes := by
  intro ps
  induction ps with
  | nil =>
    intro sl hs _ _
    exact ⟨by simp [insertAll], hs⟩
  | cons pv rest ih =>
    obtain ⟨v, lvl⟩ := pv
    intro sl hs hfresh hpw
    have hnodup : ∀ c, (sl.nodes.dropWhile (fun n => lt n.value v)).head?
        = some c → (lt v c.value || lt c.value v) = true := by
      intro c hc
      cases hdW : sl.nodes.dropWhile (fun n => lt n.value v) with
      | nil =>
        rw [hdW] at hc
        exact Option.noConfusion hc
      | cons c0 t =>
        rw [hdW] at hc
        injection hc with hc0
        subst hc0
        have hcmem : c0 ∈ sl.nodes :=
          (List.dropWhile_sublist _).subset (hdW ▸ List.mem_cons_self c0 t)
        have hx := hfresh v (by simp) c0 hcmem
        rw [Bool.or_comm]
        exact hx
    have heq := insert_eq_of_new lt sl v lvl h.lt_trans hs hnodup
    have hsorted' : sortedNodes lt (skip_list.insert lt sl v lvl).1.nodes :=
      insert_preserves_sorted lt h.lt_trans sl v lvl hs
    have hnodes' : (skip_list.insert lt sl v lvl).1.nodes
        = sl.nodes.takeWhile (fun n => lt n.value v)
            ++ ⟨sl.nextId, v, lvl⟩
              :: sl.nodes.dropWhile (fun n => lt n.value v) := by
      rw [heq]
    have hvals' : (skip_list.insert lt sl v lvl).1.values
        = (sl.nodes.takeWhile (fun n => lt n.value v)).map SNode.value
            ++ v :: (sl.nodes.dropWhile (fun n => lt n.value v)).map
              SNode.value := by
      unfold skip_list.values
      rw [hnodes']
      simp
    have hvalsold : sl.values
        = (sl.nodes.takeWhile (fun n => lt n.value v)).map SNode.value
            ++ (sl.nodes.dropWhile (fun n => lt n.value v)).map SNode.value := by
      unfold skip_list.values
      conv_lhs => rw [← List.takeWhile_append_dropWhile
        (fun n => lt n.value v) sl.nodes]
      rw [List.map_append]
    have hperm1 : List.Perm (skip_list.insert lt sl v lvl).1.values
        (v :: sl.values) := by
      rw [hvals', hvalsold]
      exact List.perm_middle
    have hfresh' : ∀ w ∈ rest.map Prod.fst,
        ∀ x ∈ (skip_list.insert lt sl v lvl).1.nodes,
        (lt x.value w || lt w x.value) = true := by
      intro w hw x hxmem
      rw [hnodes'] at hxmem
      rcases List.mem_append.mp hxmem with hx1 | hx2
      · exact hfresh w (by simp [hw]) x ((List.takeWhile_sublist _).subset hx1)
      · rcases List.mem_cons.mp hx2 with rfl | hx3
        · exact (List.pairwise_cons.mp hpw).1 w hw
        · exact hfresh w (by simp [hw]) x ((List.dropWhile_sublist _).subset hx3)
    obtain ⟨hpermr, hsortr⟩ := ih (skip_list.insert lt sl v lvl).1 hsorted'
      hfresh' (List.pairwise_cons.mp hpw).2
    refine ⟨?_, hsortr⟩
    refine hpermr.trans ?_
    refine (List.Perm.append_left (rest.map Prod.fst) hperm1).trans ?_
    exact List.perm_middle

/-- C7: inserting a finite set of pairwise non-equal values into an empty
container (in any order, with any level-generator outcomes) and then
traversing yields exactly that set, sorted strictly ascending under the
ordering relation; any permutation of the insertion order produces the
identical traversal. -/
theorem insert_round_trip (lt : α → α → Bool) (h : IsSWO lt)
    (ps qs : List (α × Nat))
    (hne : (ps.map Prod.fst).Pairwise (fun a b => (lt a b || lt b a) = true))
    (hperm : List.Perm (ps.map Prod.fst) (qs.map Prod.fst)) :
    List.Perm (insertAll lt emptySL ps).values (ps.map Prod.fst) ∧
    (insertAll lt emptySL ps).values.Pairwise (fun a b => lt a b = true) ∧
    (insertAll lt emptySL qs).values = (insertAll lt emptySL ps).values := by
  have hmain : ∀ rs : List (α × Nat),
      (rs.map Prod.fst).Pairwise (fun a b => (lt a b || lt b a) = true) →
      List.Perm (insertAll lt emptySL rs).values (rs.map Prod.fst) ∧
      (insertAll lt emptySL rs).values.Pairwise
        (fun a b => lt a b = true) := by
    intro rs hrs
    obtain ⟨hp, hsort⟩ := insertAll_perm lt h rs emptySL List.Pairwise.nil
      (by intro w _ x hx; simp [emptySL] at hx) hrs
    refine ⟨by simpa [emptySL, skip_list.values] using hp, ?_⟩
    unfold skip_list.values
    exact List.pairwise_map.mpr hsort
  obtain ⟨hp1, hs1⟩ := hmain ps hne
  have hne2 : (qs.map Prod.fst).Pairwise
      (fun a b => (lt a b || lt b a) = true) := by
    refine (List.Perm.pairwise_iff ?_ hperm).mp hne
    intro x y hxy
    rw [Bool.or_comm]
    exact hxy
  obtain ⟨hp2, hs2⟩ := hmain qs hne2
  refine ⟨hp1, hs1, ?_⟩
  haveI : IsAntisymm α (fun a b => lt a b = true) := ⟨by
    intro a b h1 h2
    have h3 := h.lt_trans a b a h1 h2
    rw [h.irrefl a] at h3
    exact Bool.noConfusion h3⟩
  exact List.eq_of_perm_of_sorted (hp2.trans (hperm.symm.trans hp1.symm)) hs2 hs1

/-- Witness for the C7 theorem: the set `{5, 3, 7}` inserted in two
different orders with different generator outcomes. -/
theorem insert_round_trip_witness :
    List.Perm (insertAll intLt emptySL [(5, 2), (3, 0), (7, 1)]).values
      ([((5 : Int), (2 : Nat)), (3, 0), (7, 1)].map Prod.fst) ∧
    (insertAll intLt emptySL
      [((5 : Int), (2 : Nat)), (3, 0), (7, 1)]).values.Pairwise
      (fun a b => intLt a b = true) ∧
    (insertAll intLt emptySL [((3 : Int), (0 : Nat)), (7, 2), (5, 1)]).values
      = (insertAll intLt emptySL
          [((5 : Int), (2 : Nat)), (3, 0), (7, 1)]).values :=
  insert_round_trip intLt intLt_swo [(5, 2), (3, 0), (7, 1)]
    [(3, 0), (7, 2), (5, 1)] (by decide) (by decide)
